import Mathlib

/-!
Verification of the steganographer LSB codec (`steganographer.py`).

The embedding below models messages as lists of character codes
(`List Nat`), bit-strings as `List Bool` (most significant bit first inside
each 8-bit group), and pixel grids as `List (List (List Nat))`: a list of
rows, each row a list of pixels, each pixel a tuple of channel intensities.

The `bits` module is imported by the source but its file is not part of the
sources at hand; its four primitives are modelled from the Bit Codec
contract of the specification (spec section 4.1).  All other definitions are direct
translations of the functions in `steganographer.py`.
-/

namespace Steganographer

/-- Constant `BYTE_LENGTH = 8` from the source. -/
def BYTE_LENGTH : Nat := 8

/-- Constant `ZERO_BYTE` from the source (eight zero digits) as a list of
bits. -/
def ZERO_BYTE : List Bool :=
  [false, false, false, false, false, false, false, false]

/-- Modelled from the spec: `bits.char_to_bits(c)` returns the 8-bit binary
representation of the character code `c`, most significant bit first,
zero-padded to exactly 8 digits. -/
def char_to_bits (c : Nat) : List Bool :=
  [c.testBit 7, c.testBit 6, c.testBit 5, c.testBit 4,
   c.testBit 3, c.testBit 2, c.testBit 1, c.testBit 0]

/-- Modelled from the spec: `bits.bits_to_char(b)` returns the character
code whose value is the bit-string `b` read as unsigned binary,
most significant bit first. -/
def bits_to_char (b : List Bool) : Nat :=
  b.foldl (fun acc bit => 2 * acc + (bif bit then 1 else 0)) 0

/-- Modelled from the spec: `bits.get_bit(n, pos)` returns the bit of the
integer `n` at zero-indexed position `pos` (position 0 = least significant
bit). -/
def get_bit (n : Nat) (pos : Nat) : Bool := n.testBit pos

/-- Modelled from the spec: `bits.set_bit(n, b, pos)` returns `n` with the
bit at position `pos` replaced by `b`, all other bits unchanged. -/
def set_bit (n : Nat) (b : Bool) (pos : Nat) : Nat :=
  2 ^ (pos + 1) * (n / 2 ^ (pos + 1)) + (bif b then 2 ^ pos else 0) +
    n % 2 ^ pos

/-- Source function `message_to_bits(text)`: concatenation of `char_to_bits` over the
characters of the message, in order (the source accumulates with `+=`). -/
def message_to_bits (text : List Nat) : List Bool :=
  (text.map char_to_bits).flatten

/-- Source function `bits_to_message(message_bits)`: repeatedly slice off the next 8 bits
while at least 8 remain; stop and return on the `ZERO_BYTE` slice, otherwise
convert the slice with `bits_to_char` and continue.  A trailing group of
fewer than 8 bits ends the loop. -/
def bits_to_message : List Bool → List Nat
  | b1 :: b2 :: b3 :: b4 :: b5 :: b6 :: b7 :: b8 :: rest =>
    if [b1, b2, b3, b4, b5, b6, b7, b8] = ZERO_BYTE then []
    else bits_to_char [b1, b2, b3, b4, b5, b6, b7, b8] :: bits_to_message rest
  | _ => []

/-- Inner channel loop of `encode`: for each intensity of a pixel, if
`index` has not exhausted the message bits, substitute bit `index` into the
LSB and advance `index`; otherwise substitute 0.  Returns the new pixel and
the final `index`. -/
def encodePixel (binarymsg : List Bool) : Nat → List Nat → List Nat × Nat
  | index, [] => ([], index)
  | index, intensity :: rest =>
    if index < binarymsg.length then
      let v := set_bit intensity (binarymsg.getD index false) 0
      let (others, index') := encodePixel binarymsg (index + 1) rest
      (v :: others, index')
    else
      let v := set_bit intensity false 0
      let (others, index') := encodePixel binarymsg index rest
      (v :: others, index')

/-- Pixel loop of `encode` over one row, threading `index`. -/
def encodeRow (binarymsg : List Bool) :
    Nat → List (List Nat) → List (List Nat) × Nat
  | index, [] => ([], index)
  | index, pixel :: rest =>
    let (px, index') := encodePixel binarymsg index pixel
    let (others, index'') := encodeRow binarymsg index' rest
    (px :: others, index'')

/-- Row loop of `encode`, threading `index` across rows. -/
def encodeRows (binarymsg : List Bool) :
    Nat → List (List (List Nat)) → List (List (List Nat)) × Nat
  | index, [] => ([], index)
  | index, row :: rest =>
    let (r, index') := encodeRow binarymsg index row
    let (others, index'') := encodeRows binarymsg index' rest
    (r :: others, index'')

/-- Source function `encode(image, message)`: convert the message to its
bit-stream and traverse the grid row by row, pixel by pixel, channel by
channel, substituting message bits (then 0) into each LSB. -/
def encode (image : List (List (List Nat))) (message : List Nat) :
    List (List (List Nat)) :=
  (encodeRows (message_to_bits message) 0 image).1

/-- State of the `decode` loop: accumulated output, current chunk, and
whether the early `return` in the loop body has fired. -/
structure DecSt where
  output : List Nat
  chunk : List Bool
  done : Bool

/-- One channel step of `decode`: append the LSB to the chunk; when the
chunk reaches `BYTE_LENGTH`, either terminate on `ZERO_BYTE` (the early
return) or convert the chunk to a character and clear it. -/
def decodeStep (s : DecSt) (num : Nat) : DecSt :=
  if s.done then s
  else
    let chunk := s.chunk ++ [get_bit num 0]
    if chunk.length = BYTE_LENGTH then
      if chunk = ZERO_BYTE then { output := s.output, chunk := chunk, done := true }
      else { output := s.output ++ [bits_to_char chunk], chunk := [], done := false }
    else { output := s.output, chunk := chunk, done := false }

/-- Source function `decode(image)`: nested traversal over rows, pixels and
channels, accumulating LSBs and emitting characters per 8-bit chunk. -/
def decode (image : List (List (List Nat))) : List Nat :=
  (image.foldl
    (fun (s : DecSt) (row : List (List Nat)) =>
      row.foldl (fun s pixel => pixel.foldl decodeStep s) s)
    { output := [], chunk := [], done := false }).output

/-- Total number of channel slots of a grid (its capacity in bits). -/
def capacity (image : List (List (List Nat))) : Nat :=
  image.flatten.flatten.length

/-- The LSB stream of a grid in row-major, then-pixel, then-channel order. -/
def lsbs (image : List (List (List Nat))) : List Bool :=
  image.flatten.flatten.map (fun n => get_bit n 0)

/-- The `j`-th aligned 8-bit group of a bit stream. -/
def byteGroup (s : List Bool) (j : Nat) : List Bool :=
  (s.drop (8 * j)).take 8

/-- Shape of a grid: per row, the list of channel arities of its pixels.
Two grids have equal `gridShape` iff they agree in row count, per-row pixel
count and per-pixel channel arity. -/
def gridShape (image : List (List (List Nat))) : List (List Nat) :=
  image.map (fun row => row.map List.length)

/-- Embedding a bit list into a channel list, consuming one bit per channel
and substituting 0 once the bits run out.  This is the flattened view of
the traversal of `encode`; `encodePixel` is proved equal to it below. -/
def embedChannels : List Bool → List Nat → List Nat
  | _, [] => []
  | [], intensity :: rest => set_bit intensity false 0 :: embedChannels [] rest
  | b :: bs, intensity :: rest => set_bit intensity b 0 :: embedChannels bs rest

/-- Helper: `decodeStep` specialised to a bit rather than a channel value. -/
def bitStep (s : DecSt) (b : Bool) : DecSt :=
  if s.done then s
  else
    let chunk := s.chunk ++ [b]
    if chunk.length = BYTE_LENGTH then
      if chunk = ZERO_BYTE then { output := s.output, chunk := chunk, done := true }
      else { output := s.output ++ [bits_to_char chunk], chunk := [], done := false }
    else { output := s.output, chunk := chunk, done := false }

/-- Helper: `decodeStep` instrumented to record the argument of every call it makes
to `bits_to_char`; the first component evolves exactly as `decodeStep`. -/
def decodeStepCalls (s : DecSt × List (List Bool)) (num : Nat) :
    DecSt × List (List Bool) :=
  if s.1.done then s
  else
    let chunk := s.1.chunk ++ [get_bit num 0]
    if chunk.length = BYTE_LENGTH then
      if chunk = ZERO_BYTE then
        ({ output := s.1.output, chunk := chunk, done := true }, s.2)
      else
        ({ output := s.1.output ++ [bits_to_char chunk], chunk := [], done := false },
         s.2 ++ [chunk])
    else ({ output := s.1.output, chunk := chunk, done := false }, s.2)

/-- Helper: `decode` instrumented with the log of arguments passed to
`bits_to_char`. -/
def decodeWithCalls (image : List (List (List Nat))) :
    DecSt × List (List Bool) :=
  image.foldl
    (fun (s : DecSt × List (List Bool)) (row : List (List Nat)) =>
      row.foldl (fun s pixel => pixel.foldl decodeStepCalls s) s)
    ({ output := [], chunk := [], done := false }, [])

end Steganographer

namespace Steganographer

theorem foldl_bitStep_done (l : List Bool) (s : DecSt) (h : s.done = true) :
    l.foldl bitStep s = s := by
  induction l with
  | nil => rfl
  | cons b rest ih => simp [List.foldl_cons, bitStep, h, ih]

theorem foldl_bitStep_below8 : ∀ (l : List Bool) (s : DecSt),
    s.done = false → s.chunk.length + l.length < 8 →
    l.foldl bitStep s = { output := s.output, chunk := s.chunk ++ l, done := false }
  | [], s, hd, _ => by cases s; simp_all
  | b :: rest, s, hd, hl => by
    have hlen : ¬ (s.chunk.length + 1 = 8) := by simp at hl; omega
    have step : bitStep s b =
        { output := s.output, chunk := s.chunk ++ [b], done := false } := by
      simp [bitStep, hd, BYTE_LENGTH, hlen]
    rw [List.foldl_cons, step,
      foldl_bitStep_below8 rest _ rfl (by simp at hl ⊢; omega)]
    simp

theorem fold_bits : ∀ (bs : List Bool) (out : List Nat),
    (bs.foldl bitStep { output := out, chunk := [], done := false }).output =
      out ++ bits_to_message bs
  | [], out => by simp [bits_to_message]
  | [b1], out => by
    rw [foldl_bitStep_below8 _ _ rfl (by simp)]; simp [bits_to_message]
  | [b1, b2], out => by
    rw [foldl_bitStep_below8 _ _ rfl (by simp)]; simp [bits_to_message]
  | [b1, b2, b3], out => by
    rw [foldl_bitStep_below8 _ _ rfl (by simp)]; simp [bits_to_message]
  | [b1, b2, b3, b4], out => by
    rw [foldl_bitStep_below8 _ _ rfl (by simp)]; simp [bits_to_message]
  | [b1, b2, b3, b4, b5], out => by
    rw [foldl_bitStep_below8 _ _ rfl (by simp)]; simp [bits_to_message]
  | [b1, b2, b3, b4, b5, b6], out => by
    rw [foldl_bitStep_below8 _ _ rfl (by simp)]; simp [bits_to_message]
  | [b1, b2, b3, b4, b5, b6, b7], out => by
    rw [foldl_bitStep_below8 _ _ rfl (by simp)]; simp [bits_to_message]
  | b1 :: b2 :: b3 :: b4 :: b5 :: b6 :: b7 :: b8 :: rest, out => by
    have hsplit : (b1 :: b2 :: b3 :: b4 :: b5 :: b6 :: b7 :: b8 :: rest) =
        ([b1, b2, b3, b4, b5, b6, b7] : List Bool) ++ (b8 :: rest) := rfl
    rw [hsplit, List.foldl_append,
      foldl_bitStep_below8 [b1, b2, b3, b4, b5, b6, b7] ⟨out, [], false⟩ rfl (by simp)]
    simp only [List.nil_append, List.foldl_cons]
    by_cases h8 : ([b1, b2, b3, b4, b5, b6, b7, b8] : List Bool) = ZERO_BYTE
    · have hstep : bitStep ⟨out, [b1, b2, b3, b4, b5, b6, b7], false⟩ b8 =
          ⟨out, [b1, b2, b3, b4, b5, b6, b7, b8], true⟩ := by
        simp [bitStep, BYTE_LENGTH, h8, ZERO_BYTE]
      rw [hstep, foldl_bitStep_done _ _ rfl]
      simp only [bits_to_message, if_pos h8]
      simp
    · have hstep : bitStep ⟨out, [b1, b2, b3, b4, b5, b6, b7], false⟩ b8 =
          ⟨out ++ [bits_to_char [b1, b2, b3, b4, b5, b6, b7, b8]], [], false⟩ := by
        simp [bitStep, BYTE_LENGTH, h8]
      rw [hstep, fold_bits rest _]
      simp only [bits_to_message, if_neg h8]
      simp

end Steganographer

namespace Steganographer

theorem decodeStep_eq_bitStep (s : DecSt) (num : Nat) :
    decodeStep s num = bitStep s (get_bit num 0) := rfl

theorem decode_eq_bits_to_message (image : List (List (List Nat))) :
    decode image = bits_to_message (lsbs image) := by
  have h1 : decode image =
      ((image.flatten.flatten).foldl decodeStep
        { output := [], chunk := [], done := false }).output := by
    rw [decode, ← List.foldl_flatten, ← List.foldl_flatten]
  have h2 : (lsbs image).foldl bitStep
      ({ output := [], chunk := [], done := false } : DecSt) =
      (image.flatten.flatten).foldl decodeStep
        { output := [], chunk := [], done := false } := by
    rw [lsbs, List.foldl_map]
    rfl
  rw [h1, ← h2, fold_bits, List.nil_append]

theorem encodePixel_eq : ∀ (channels : List Nat) (bs : List Bool) (index : Nat),
    encodePixel bs index channels =
      (embedChannels (bs.drop index) channels,
       index + min channels.length (bs.length - index))
  | [], bs, index => by simp [encodePixel, embedChannels]
  | intensity :: rest, bs, index => by
    rcases Nat.lt_or_ge index bs.length with h | h
    · have hd : bs.drop index = bs[index] :: bs.drop (index + 1) :=
        List.drop_eq_getElem_cons h
      have hgetD : bs.getD index false = bs[index] := by
        simp [List.getD_eq_getElem?_getD, List.getElem?_eq_getElem h]
      simp only [encodePixel, if_pos h, encodePixel_eq rest bs (index + 1), hgetD, hd,
        embedChannels, Prod.mk.injEq, List.length_cons]
      exact ⟨trivial, by omega⟩
    · have hd : bs.drop index = [] := List.drop_eq_nil_of_le h
      simp only [encodePixel, if_neg (Nat.not_lt.mpr h), encodePixel_eq rest bs index, hd,
        embedChannels, Prod.mk.injEq, List.length_cons]
      exact ⟨trivial, by omega⟩

end Steganographer

namespace Steganographer

theorem embedChannels_nil (bs : List Bool) : embedChannels bs [] = [] := by
  cases bs <;> rfl

theorem embedChannels_append : ∀ (l1 l2 : List Nat) (bs : List Bool),
    embedChannels bs (l1 ++ l2) =
      embedChannels bs l1 ++ embedChannels (bs.drop l1.length) l2
  | [], l2, bs => by simp [embedChannels_nil]
  | c :: l1, l2, [] => by
    simp only [List.cons_append, embedChannels, List.drop_nil, List.append_eq,
      embedChannels_append l1 l2 []]
  | c :: l1, l2, b :: bs => by
    simp only [List.cons_append, embedChannels, List.length_cons, List.drop_succ_cons,
      List.append_eq, embedChannels_append l1 l2 bs]

theorem drop_min_eq (bs : List Bool) (i p : Nat) :
    bs.drop (i + min p (bs.length - i)) = bs.drop (i + p) := by
  rcases le_or_lt (i + p) bs.length with h | h
  · have hm : min p (bs.length - i) = p := by omega
    rw [hm]
  · rw [List.drop_eq_nil_of_le (by omega), List.drop_eq_nil_of_le (by omega)]

theorem encodeRow_eq : ∀ (pixels : List (List Nat)) (bs : List Bool) (index : Nat),
    (encodeRow bs index pixels).1.flatten = embedChannels (bs.drop index) pixels.flatten ∧
    (encodeRow bs index pixels).2 = index + min pixels.flatten.length (bs.length - index)
  | [], bs, index => by simp [encodeRow, embedChannels_nil]
  | pixel :: rest, bs, index => by
    have hpix := encodePixel_eq pixel bs index
    have hrest := encodeRow_eq rest bs (index + min pixel.length (bs.length - index))
    simp only [encodeRow, hpix]
    constructor
    · simp only [List.flatten_cons, embedChannels_append, hrest.1, drop_min_eq,
        List.drop_drop]
    · rw [hrest.2]
      simp only [List.flatten_cons, List.length_append]
      omega

theorem encodeRows_eq : ∀ (rows : List (List (List Nat))) (bs : List Bool) (index : Nat),
    (encodeRows bs index rows).1.flatten.flatten =
      embedChannels (bs.drop index) rows.flatten.flatten ∧
    (encodeRows bs index rows).2 =
      index + min rows.flatten.flatten.length (bs.length - index)
  | [], bs, index => by simp [encodeRows, embedChannels_nil]
  | row :: rest, bs, index => by
    have hrow := encodeRow_eq row bs index
    have hrest := encodeRows_eq rest bs (index + min row.flatten.length (bs.length - index))
    simp only [encodeRows, hrow.1, hrow.2]
    constructor
    · simp only [List.flatten_cons, List.flatten_append, hrow.1, hrest.1,
        embedChannels_append, drop_min_eq, List.drop_drop]
    · rw [hrest.2]
      simp only [List.flatten_cons, List.flatten_append, List.length_append]
      omega

theorem encode_flatten (image : List (List (List Nat))) (message : List Nat) :
    (encode image message).flatten.flatten =
      embedChannels (message_to_bits message) image.flatten.flatten := by
  rw [encode, (encodeRows_eq image (message_to_bits message) 0).1, List.drop_zero]

end Steganographer

namespace Steganographer

theorem set_bit_zero (n : Nat) (b : Bool) :
    set_bit n b 0 = 2 * (n / 2) + (bif b then 1 else 0) := by
  simp [set_bit, Nat.mod_one]

theorem get_bit_set_bit (n : Nat) (b : Bool) : get_bit (set_bit n b 0) 0 = b := by
  rw [get_bit, set_bit_zero, Nat.testBit_zero]
  cases b
  all_goals simp
  all_goals omega

theorem set_bit_div_two (n : Nat) (b : Bool) : set_bit n b 0 / 2 = n / 2 := by
  rw [set_bit_zero]
  cases b
  all_goals simp
  all_goals omega

theorem embed_lsbs : ∀ (channels : List Nat) (bs : List Bool),
    (embedChannels bs channels).map (fun n => get_bit n 0) =
      bs.take channels.length ++ List.replicate (channels.length - bs.length) false
  | [], bs => by simp [embedChannels_nil]
  | c :: rest, [] => by
    simp only [embedChannels, List.map_cons, get_bit_set_bit, embed_lsbs rest []]
    simp [List.replicate_succ]
  | c :: rest, b :: bs => by
    simp only [embedChannels, List.map_cons, get_bit_set_bit, embed_lsbs rest bs]
    simp [List.take_succ_cons, Nat.succ_sub_succ]

theorem embedChannels_length : ∀ (channels : List Nat) (bs : List Bool),
    (embedChannels bs channels).length = channels.length
  | [], bs => by simp [embedChannels_nil]
  | c :: rest, [] => by simp [embedChannels, embedChannels_length rest []]
  | c :: rest, b :: bs => by simp [embedChannels, embedChannels_length rest bs]

theorem lsbs_length (image : List (List (List Nat))) :
    (lsbs image).length = capacity image := by
  rw [lsbs, List.length_map, capacity]

theorem lsbs_encode (image : List (List (List Nat))) (message : List Nat) :
    lsbs (encode image message) =
      (message_to_bits message).take (capacity image) ++
        List.replicate (capacity image - (message_to_bits message).length) false := by
  rw [lsbs, encode_flatten, embed_lsbs, capacity]

theorem message_to_bits_nil : message_to_bits [] = [] := rfl

theorem message_to_bits_cons (c : Nat) (m : List Nat) :
    message_to_bits (c :: m) = char_to_bits c ++ message_to_bits m := by
  simp [message_to_bits]

theorem message_to_bits_length (m : List Nat) :
    (message_to_bits m).length = 8 * m.length := by
  induction m with
  | nil => rfl
  | cons c m ih =>
    rw [message_to_bits_cons, List.length_append, ih]
    simp [char_to_bits]
    omega

theorem capacity_encode (image : List (List (List Nat))) (message : List Nat) :
    capacity (encode image message) = capacity image := by
  rw [capacity, encode_flatten, embedChannels_length, capacity]

end Steganographer

namespace Steganographer

set_option maxRecDepth 4000 in
theorem bits_to_char_char_to_bits : ∀ c < 256, bits_to_char (char_to_bits c) = c := by
  decide

set_option maxRecDepth 4000 in
theorem char_to_bits_ne_zeroByte : ∀ c < 256, c ≠ 0 → char_to_bits c ≠ ZERO_BYTE := by
  decide

theorem byteGroup_zero (b1 b2 b3 b4 b5 b6 b7 b8 : Bool) (rest : List Bool) :
    byteGroup (b1 :: b2 :: b3 :: b4 :: b5 :: b6 :: b7 :: b8 :: rest) 0 =
      [b1, b2, b3, b4, b5, b6, b7, b8] := rfl

theorem byteGroup_succ (b1 b2 b3 b4 b5 b6 b7 b8 : Bool) (rest : List Bool) (j : Nat) :
    byteGroup (b1 :: b2 :: b3 :: b4 :: b5 :: b6 :: b7 :: b8 :: rest) (j + 1) =
      byteGroup rest j := by
  have hm : 8 * (j + 1) = 8 + 8 * j := by omega
  have h8 : List.drop 8 (b1 :: b2 :: b3 :: b4 :: b5 :: b6 :: b7 :: b8 :: rest) = rest := rfl
  rw [byteGroup, hm, ← List.drop_drop, h8, byteGroup]

theorem length_cons8 (b1 b2 b3 b4 b5 b6 b7 b8 : Bool) (rest : List Bool) :
    (b1 :: b2 :: b3 :: b4 :: b5 :: b6 :: b7 :: b8 :: rest).length = rest.length + 8 := by
  simp

theorem bits_to_message_no_zero : ∀ (s : List Bool),
    (∀ j < s.length / 8, byteGroup s j ≠ ZERO_BYTE) →
    bits_to_message s =
      (List.range (s.length / 8)).map (fun j => bits_to_char (byteGroup s j))
  | [], _ => by simp [bits_to_message]
  | [b1], _ => by simp [bits_to_message]
  | [b1, b2], _ => by simp [bits_to_message]
  | [b1, b2, b3], _ => by simp [bits_to_message]
  | [b1, b2, b3, b4], _ => by simp [bits_to_message]
  | [b1, b2, b3, b4, b5], _ => by simp [bits_to_message]
  | [b1, b2, b3, b4, b5, b6], _ => by simp [bits_to_message]
  | [b1, b2, b3, b4, b5, b6, b7], _ => by simp [bits_to_message]
  | b1 :: b2 :: b3 :: b4 :: b5 :: b6 :: b7 :: b8 :: rest, h => by
    have hlen := length_cons8 b1 b2 b3 b4 b5 b6 b7 b8 rest
    have hpos : 0 < (b1 :: b2 :: b3 :: b4 :: b5 :: b6 :: b7 :: b8 :: rest).length / 8 := by
      rw [hlen]; omega
    have h0 : ([b1, b2, b3, b4, b5, b6, b7, b8] : List Bool) ≠ ZERO_BYTE := by
      have := h 0 hpos
      rwa [byteGroup_zero] at this
    have ih := bits_to_message_no_zero rest (fun j hj => by
      have hj' : j + 1 < (b1 :: b2 :: b3 :: b4 :: b5 :: b6 :: b7 :: b8 :: rest).length / 8 := by
        rw [hlen]; omega
      have := h (j + 1) hj'
      rwa [byteGroup_succ] at this)
    have hdiv : (b1 :: b2 :: b3 :: b4 :: b5 :: b6 :: b7 :: b8 :: rest).length / 8 =
        rest.length / 8 + 1 := by rw [hlen]; omega
    rw [bits_to_message, if_neg h0, hdiv, List.range_succ_eq_map, List.map_cons, ih,
      List.map_map]
    congr 1

end Steganographer

namespace Steganographer

theorem bits_to_message_zero_at : ∀ (s : List Bool) (j : Nat),
    8 * j + 8 ≤ s.length →
    (∀ jj < j, byteGroup s jj ≠ ZERO_BYTE) →
    byteGroup s j = ZERO_BYTE →
    bits_to_message s =
      (List.range j).map (fun jj => bits_to_char (byteGroup s jj))
  | [], j, hfit, _, _ => by simp at hfit
  | [b1], j, hfit, _, _ => by simp at hfit
  | [b1, b2], j, hfit, _, _ => by simp at hfit
  | [b1, b2, b3], j, hfit, _, _ => by simp at hfit
  | [b1, b2, b3, b4], j, hfit, _, _ => by simp at hfit
  | [b1, b2, b3, b4, b5], j, hfit, _, _ => by simp at hfit
  | [b1, b2, b3, b4, b5, b6], j, hfit, _, _ => by simp at hfit
  | [b1, b2, b3, b4, b5, b6, b7], j, hfit, _, _ => by simp at hfit
  | b1 :: b2 :: b3 :: b4 :: b5 :: b6 :: b7 :: b8 :: rest, 0, hfit, hpre, hterm => by
    rw [byteGroup_zero] at hterm
    rw [bits_to_message, if_pos hterm]
    simp
  | b1 :: b2 :: b3 :: b4 :: b5 :: b6 :: b7 :: b8 :: rest, j + 1, hfit, hpre, hterm => by
    have hlen := length_cons8 b1 b2 b3 b4 b5 b6 b7 b8 rest
    have h0 : ([b1, b2, b3, b4, b5, b6, b7, b8] : List Bool) ≠ ZERO_BYTE := by
      have := hpre 0 (by omega)
      rwa [byteGroup_zero] at this
    have ih := bits_to_message_zero_at rest j
      (by rw [hlen] at hfit; omega)
      (fun jj hjj => by
        have := hpre (jj + 1) (by omega)
        rwa [byteGroup_succ] at this)
      (by rwa [byteGroup_succ] at hterm)
    rw [bits_to_message, if_neg h0, ih, List.range_succ_eq_map, List.map_cons]
    congr 1
    rw [List.map_map]
    congr 1

end Steganographer

namespace Steganographer

theorem bits_to_message_replicate (r : Nat) (h : 8 ≤ r) :
    bits_to_message (List.replicate r false) = [] := by
  obtain ⟨n, rfl⟩ : ∃ n, r = 8 + n := ⟨r - 8, by omega⟩
  rw [List.replicate_add]
  have h8 : List.replicate 8 false =
      ([false, false, false, false, false, false, false, false] : List Bool) := rfl
  rw [h8]
  simp only [List.cons_append, List.nil_append]
  rw [bits_to_message,
    if_pos (show ([false, false, false, false, false, false, false, false] : List Bool) =
      ZERO_BYTE from rfl)]

theorem bits_to_message_msg_append : ∀ (m : List Nat),
    (∀ c ∈ m, c < 256) → (∀ c ∈ m, c ≠ 0) → ∀ (r : Nat), 8 ≤ r →
    bits_to_message (message_to_bits m ++ List.replicate r false) = m
  | [], _, _, r, hr => by
    rw [message_to_bits_nil, List.nil_append, bits_to_message_replicate r hr]
  | c :: m, hlt, hnz, r, hr => by
    have hc : c < 256 := hlt c (by simp)
    have hcz : c ≠ 0 := hnz c (by simp)
    have hne : ¬(([c.testBit 7, c.testBit 6, c.testBit 5, c.testBit 4,
        c.testBit 3, c.testBit 2, c.testBit 1, c.testBit 0] : List Bool) = ZERO_BYTE) :=
      char_to_bits_ne_zeroByte c hc hcz
    have ih := bits_to_message_msg_append m
      (fun x hx => hlt x (by simp [hx])) (fun x hx => hnz x (by simp [hx])) r hr
    rw [message_to_bits_cons, List.append_assoc]
    show bits_to_message (c.testBit 7 :: c.testBit 6 :: c.testBit 5 :: c.testBit 4 ::
      c.testBit 3 :: c.testBit 2 :: c.testBit 1 :: c.testBit 0 ::
      (message_to_bits m ++ List.replicate r false)) = c :: m
    rw [bits_to_message, if_neg hne, ih]
    congr 1
    exact bits_to_char_char_to_bits c hc

end Steganographer

namespace Steganographer

theorem decodeStepCalls_fst (s : DecSt) (l : List (List Bool)) (num : Nat) :
    (decodeStepCalls (s, l) num).1 = decodeStep s num := by
  simp only [decodeStepCalls, decodeStep]
  split_ifs <;> rfl

theorem foldl_calls_fst : ∀ (ns : List Nat) (s : DecSt) (l : List (List Bool)),
    (ns.foldl decodeStepCalls (s, l)).1 = ns.foldl decodeStep s
  | [], s, l => rfl
  | n :: ns, s, l => by
    rw [List.foldl_cons, List.foldl_cons]
    have h := decodeStepCalls_fst s l n
    rcases hp : decodeStepCalls (s, l) n with ⟨s', l'⟩
    rw [hp] at h
    have h' : s' = decodeStep s n := by simpa using h
    rw [foldl_calls_fst ns s' l', h']

theorem foldl_calls_inv : ∀ (ns : List Nat) (s : DecSt) (l : List (List Bool)),
    (s.done = false → s.chunk.length < 8) →
    (∀ c ∈ l, c.length = 8) →
    ∀ c ∈ (ns.foldl decodeStepCalls (s, l)).2, c.length = 8
  | [], _, _, _, hl => hl
  | n :: ns, s, l, hs, hl => by
    rw [List.foldl_cons]
    by_cases hd : s.done = true
    · have he : decodeStepCalls (s, l) n = (s, l) := by simp [decodeStepCalls, hd]
      rw [he]
      exact foldl_calls_inv ns s l hs hl
    · have hd' : s.done = false := by simpa using hd
      have hcl : s.chunk.length < 8 := hs hd'
      by_cases h8 : (s.chunk ++ [get_bit n 0]).length = BYTE_LENGTH
      · by_cases hz : s.chunk ++ [get_bit n 0] = ZERO_BYTE
        · have he : decodeStepCalls (s, l) n =
              ({ output := s.output, chunk := s.chunk ++ [get_bit n 0], done := true }, l) := by
            simp [decodeStepCalls, hd', h8, hz, ZERO_BYTE, BYTE_LENGTH]
          rw [he]
          exact foldl_calls_inv ns _ l (fun hcontra => by simp at hcontra) hl
        · have he : decodeStepCalls (s, l) n =
              ({ output := s.output ++ [bits_to_char (s.chunk ++ [get_bit n 0])],
                 chunk := [], done := false },
               l ++ [s.chunk ++ [get_bit n 0]]) := by
            simp [decodeStepCalls, hd', h8, hz]
          rw [he]
          refine foldl_calls_inv ns _ _ (fun _ => by simp) ?_
          intro c hc
          rcases List.mem_append.mp hc with h | h
          · exact hl c h
          · simp only [List.mem_singleton] at h
            rw [h]
            simpa [BYTE_LENGTH] using h8
      · have h8' : ¬(s.chunk.length + 1 = BYTE_LENGTH) := by simpa using h8
        have he : decodeStepCalls (s, l) n =
            ({ output := s.output, chunk := s.chunk ++ [get_bit n 0], done := false }, l) := by
          simp [decodeStepCalls, hd', h8']
        rw [he]
        refine foldl_calls_inv ns _ l (fun _ => ?_) hl
        simp only [BYTE_LENGTH] at h8'
        simp only [List.length_append, List.length_cons, List.length_nil]
        omega

theorem decodeWithCalls_flat (image : List (List (List Nat))) :
    decodeWithCalls image =
      (image.flatten.flatten).foldl decodeStepCalls
        ({ output := [], chunk := [], done := false }, []) := by
  rw [decodeWithCalls, ← List.foldl_flatten, ← List.foldl_flatten]

theorem decode_flat (image : List (List (List Nat))) :
    decode image =
      ((image.flatten.flatten).foldl decodeStep
        { output := [], chunk := [], done := false }).output := by
  rw [decode, ← List.foldl_flatten, ← List.foldl_flatten]

end Steganographer

namespace Steganographer

theorem embed_forall2 : ∀ (channels : List Nat) (bs : List Bool),
    List.Forall₂ (fun orig enc => enc / 2 = orig / 2) channels (embedChannels bs channels)
  | [], bs => by
    rw [embedChannels_nil]
    exact List.Forall₂.nil
  | c :: rest, [] => by
    simp only [embedChannels]
    exact List.Forall₂.cons (set_bit_div_two c false) (embed_forall2 rest [])
  | c :: rest, b :: bs => by
    simp only [embedChannels]
    exact List.Forall₂.cons (set_bit_div_two c b) (embed_forall2 rest bs)

theorem encodePixel_fst_length (pixel : List Nat) (bs : List Bool) (i : Nat) :
    ((encodePixel bs i pixel).1).length = pixel.length := by
  rw [encodePixel_eq]
  exact embedChannels_length pixel _

theorem encodeRow_shape : ∀ (pixels : List (List Nat)) (bs : List Bool) (i : Nat),
    ((encodeRow bs i pixels).1).map List.length = pixels.map List.length
  | [], _, _ => rfl
  | px :: rest, bs, i => by
    rcases hpx : encodePixel bs i px with ⟨px', i'⟩
    rcases hrow : encodeRow bs i' rest with ⟨others, i''⟩
    simp only [encodeRow, hpx, hrow, List.map_cons]
    have h1 : px'.length = px.length := by
      have := encodePixel_fst_length px bs i
      rwa [hpx] at this
    have h2 := encodeRow_shape rest bs i'
    rw [hrow] at h2
    simp [h1, h2]

theorem encodeRows_shape : ∀ (rows : List (List (List Nat))) (bs : List Bool) (i : Nat),
    gridShape ((encodeRows bs i rows).1) = gridShape rows
  | [], _, _ => rfl
  | row :: rest, bs, i => by
    rcases hrow : encodeRow bs i row with ⟨row', i'⟩
    rcases hrest : encodeRows bs i' rest with ⟨others, i''⟩
    simp only [encodeRows, hrow, hrest, gridShape, List.map_cons]
    have h1 : row'.map List.length = row.map List.length := by
      have := encodeRow_shape row bs i
      rwa [hrow] at this
    have h2 := encodeRows_shape rest bs i'
    rw [hrest] at h2
    simp only [gridShape] at h2
    simp [h1, h2]

end Steganographer

namespace Steganographer

/-- C1: for every pixel grid `g` and every ASCII message `m` that contains
no NUL character and whose bit length (8 times its character count) is
strictly less than the total channel-slot capacity of `g` minus 8,
`decode (encode g m) = m`. -/
theorem decode_encode_round_trip (g : List (List (List Nat))) (m : List Nat)
    (hascii : ∀ c ∈ m, c < 128) (hnul : ∀ c ∈ m, c ≠ 0)
    (hcap : 8 * m.length < capacity g - 8) :
    decode (encode g m) = m := by
  have hlt : ∀ c ∈ m, c < 256 := fun c hc => lt_trans (hascii c hc) (by norm_num)
  have hbits : (message_to_bits m).length = 8 * m.length := message_to_bits_length m
  have htake : (message_to_bits m).take (capacity g) = message_to_bits m :=
    List.take_of_length_le (by omega)
  rw [decode_eq_bits_to_message, lsbs_encode, htake, hbits]
  exact bits_to_message_msg_append m hlt hnul _ (by omega)

/-- Witness for C1 at a concrete grid of 18 channel slots and the
one-character message `"H"`. -/
theorem decode_encode_round_trip_witness :
    (∀ c ∈ ([72] : List Nat), c < 128) ∧ (∀ c ∈ ([72] : List Nat), c ≠ 0) ∧
    8 * ([72] : List Nat).length <
      capacity [[[200, 200, 200], [200, 200, 200], [200, 200, 200],
                 [200, 200, 200], [200, 200, 200], [200, 200, 200]]] - 8 ∧
    decode (encode [[[200, 200, 200], [200, 200, 200], [200, 200, 200],
                 [200, 200, 200], [200, 200, 200], [200, 200, 200]]] [72]) = [72] :=
  ⟨by decide, by decide, by decide,
   decode_encode_round_trip _ [72] (by decide) (by decide) (by decide)⟩

/-- C2: every channel value of `encode g m` agrees with the corresponding
channel value of `g` on all bits above bit 0: pointwise along the traversal
order, `encoded / 2 = original / 2` (only the LSB may differ). -/
theorem encode_changes_only_lsb (g : List (List (List Nat))) (m : List Nat) :
    List.Forall₂ (fun orig enc => enc / 2 = orig / 2)
      g.flatten.flatten (encode g m).flatten.flatten := by
  rw [encode_flatten]
  exact embed_forall2 _ _

/-- C3: when the message bit-stream is longer than the grid capacity `k`,
`encode` embeds exactly the first `k` bits (the whole LSB stream is the
`k`-prefix of the bit-stream, and slot `i` carries bit `i` for every
`i < k`); the rest of the message is dropped and no error occurs (`encode`
is total). -/
theorem encode_truncates (g : List (List (List Nat))) (m : List Nat)
    (h : capacity g < (message_to_bits m).length) :
    lsbs (encode g m) = (message_to_bits m).take (capacity g) ∧
    ∀ i < capacity g,
      (lsbs (encode g m)).getD i false = (message_to_bits m).getD i false := by
  have h1 : lsbs (encode g m) = (message_to_bits m).take (capacity g) := by
    rw [lsbs_encode, Nat.sub_eq_zero_of_le (le_of_lt h), List.replicate_zero,
      List.append_nil]
  refine ⟨h1, fun i hi => ?_⟩
  rw [h1, List.getD_eq_getElem?_getD, List.getD_eq_getElem?_getD,
    List.getElem?_take_of_lt hi]

/-- Witness for C3: a 1-slot grid receiving an 8-bit message. -/
theorem encode_truncates_witness :
    capacity [[[0]]] < (message_to_bits [72]).length ∧
    (lsbs (encode [[[0]]] [72]) = (message_to_bits [72]).take (capacity [[[0]]]) ∧
     ∀ i < capacity [[[0]]],
       (lsbs (encode [[[0]]] [72])).getD i false = (message_to_bits [72]).getD i false) :=
  ⟨by decide, encode_truncates [[[0]]] [72] (by decide)⟩

/-- C4: every channel slot whose traversal index is at least the bit length
of the message has LSB 0 in `encode g m`; with `m = []` this forces the
LSB of every slot to 0. -/
theorem encode_zero_fills (g : List (List (List Nat))) (m : List Nat) (i : Nat)
    (h1 : (message_to_bits m).length ≤ i) (_h2 : i < capacity g) :
    (lsbs (encode g m)).getD i false = false := by
  rw [lsbs_encode, List.getD_eq_getElem?_getD,
    List.getElem?_append_right (by simp [List.length_take]; omega)]
  rw [List.getElem?_replicate]
  split
  · rfl
  · rfl

/-- Witness for C4: the empty message on a 1-pixel grid, slot 0. -/
theorem encode_zero_fills_witness :
    (message_to_bits []).length ≤ 0 ∧ 0 < capacity [[[7]]] ∧
    (lsbs (encode [[[7]]] [])).getD 0 false = false :=
  ⟨by decide, by decide, encode_zero_fills [[[7]]] [] 0 (by decide) (by decide)⟩

end Steganographer

namespace Steganographer

/-- C5: decoding stops at the first aligned all-zero 8-bit group of the LSB
stream: if groups `0..j-1` are all non-zero and group `j` is the zero byte,
`decode` returns exactly the characters of the `j` preceding groups,
ignoring all remaining channel slots. -/
theorem decode_stops_at_first_terminator (g : List (List (List Nat))) (j : Nat)
    (hfit : 8 * j + 8 ≤ capacity g)
    (hpre : ∀ jj < j, byteGroup (lsbs g) jj ≠ ZERO_BYTE)
    (hterm : byteGroup (lsbs g) j = ZERO_BYTE) :
    decode g = (List.range j).map (fun jj => bits_to_char (byteGroup (lsbs g) jj)) := by
  rw [decode_eq_bits_to_message]
  exact bits_to_message_zero_at (lsbs g) j (by rw [lsbs_length]; omega) hpre hterm

/-- Witness for C5: a grid whose LSB stream is `10000000 00000000`. -/
theorem decode_stops_at_first_terminator_witness :
    8 * 1 + 8 ≤ capacity [[[1, 0, 0, 0, 0, 0, 0, 0], [0, 0, 0, 0, 0, 0, 0, 0]]] ∧
    (∀ jj < 1,
      byteGroup (lsbs [[[1, 0, 0, 0, 0, 0, 0, 0], [0, 0, 0, 0, 0, 0, 0, 0]]]) jj ≠
        ZERO_BYTE) ∧
    byteGroup (lsbs [[[1, 0, 0, 0, 0, 0, 0, 0], [0, 0, 0, 0, 0, 0, 0, 0]]]) 1 =
      ZERO_BYTE ∧
    decode [[[1, 0, 0, 0, 0, 0, 0, 0], [0, 0, 0, 0, 0, 0, 0, 0]]] =
      (List.range 1).map (fun jj =>
        bits_to_char
          (byteGroup (lsbs [[[1, 0, 0, 0, 0, 0, 0, 0], [0, 0, 0, 0, 0, 0, 0, 0]]]) jj)) :=
  ⟨by decide, by decide, by decide,
   decode_stops_at_first_terminator _ 1 (by decide) (by decide) (by decide)⟩

/-- C6: if no aligned 8-bit group of the LSB stream is the zero byte,
`decode` traverses the whole grid and returns the characters of all full
groups; being a total function, it raises no error. -/
theorem decode_without_terminator (g : List (List (List Nat)))
    (h : ∀ j < capacity g / 8, byteGroup (lsbs g) j ≠ ZERO_BYTE) :
    decode g =
      (List.range (capacity g / 8)).map (fun j => bits_to_char (byteGroup (lsbs g) j)) := by
  rw [decode_eq_bits_to_message]
  have hh : ∀ j < (lsbs g).length / 8, byteGroup (lsbs g) j ≠ ZERO_BYTE := by
    rw [lsbs_length]
    exact h
  have := bits_to_message_no_zero (lsbs g) hh
  rwa [lsbs_length] at this

/-- Witness for C6: a grid whose LSB stream is `11111111` (no zero group). -/
theorem decode_without_terminator_witness :
    (∀ j < capacity [[[1, 1, 1, 1, 1, 1, 1, 1]]] / 8,
      byteGroup (lsbs [[[1, 1, 1, 1, 1, 1, 1, 1]]]) j ≠ ZERO_BYTE) ∧
    decode [[[1, 1, 1, 1, 1, 1, 1, 1]]] =
      (List.range (capacity [[[1, 1, 1, 1, 1, 1, 1, 1]]] / 8)).map
        (fun j => bits_to_char (byteGroup (lsbs [[[1, 1, 1, 1, 1, 1, 1, 1]]]) j)) :=
  ⟨by decide, decode_without_terminator _ (by decide)⟩

/-- C7 counterexample: in the all-zero 16-slot grid, slots 8..15 (position
`p = 8`, a multiple of 8) all have LSB 0, yet `decode` returns 0 characters,
not `p / 8 = 1`: the claim fails when an earlier aligned group is already
all-zero. -/
theorem decode_terminator_position_counterexample :
    byteGroup (lsbs [[[0, 0, 0, 0, 0, 0, 0, 0], [0, 0, 0, 0, 0, 0, 0, 0]]]) (8 / 8) =
      ZERO_BYTE ∧
    8 % 8 = 0 ∧
    8 + 8 ≤ capacity [[[0, 0, 0, 0, 0, 0, 0, 0], [0, 0, 0, 0, 0, 0, 0, 0]]] ∧
    (decode [[[0, 0, 0, 0, 0, 0, 0, 0], [0, 0, 0, 0, 0, 0, 0, 0]]]).length ≠ 8 / 8 := by
  decide

/-- C7 (amended): if the slots `p..p+7` (with `p` a multiple of 8 and
`p + 8` within capacity) all have LSB 0 and no earlier aligned group of 8
slots is all-zero, then `decode` returns exactly `p / 8` characters. -/
theorem decode_terminator_position (g : List (List (List Nat))) (p : Nat)
    (hp : p % 8 = 0) (hfit : p + 8 ≤ capacity g)
    (hzero : byteGroup (lsbs g) (p / 8) = ZERO_BYTE)
    (hpre : ∀ jj < p / 8, byteGroup (lsbs g) jj ≠ ZERO_BYTE) :
    (decode g).length = p / 8 := by
  rw [decode_eq_bits_to_message,
    bits_to_message_zero_at (lsbs g) (p / 8) (by rw [lsbs_length]; omega) hpre hzero]
  simp

/-- Witness for C7 (amended): LSB stream `01000000 00000000`, `p = 8`. -/
theorem decode_terminator_position_witness :
    8 % 8 = 0 ∧
    8 + 8 ≤ capacity [[[0, 1, 0, 0, 0, 0, 0, 0], [0, 0, 0, 0, 0, 0, 0, 0]]] ∧
    byteGroup (lsbs [[[0, 1, 0, 0, 0, 0, 0, 0], [0, 0, 0, 0, 0, 0, 0, 0]]]) (8 / 8) =
      ZERO_BYTE ∧
    (∀ jj < 8 / 8,
      byteGroup (lsbs [[[0, 1, 0, 0, 0, 0, 0, 0], [0, 0, 0, 0, 0, 0, 0, 0]]]) jj ≠
        ZERO_BYTE) ∧
    (decode [[[0, 1, 0, 0, 0, 0, 0, 0], [0, 0, 0, 0, 0, 0, 0, 0]]]).length = 8 / 8 :=
  ⟨by decide, by decide, by decide, by decide,
   decode_terminator_position _ 8 (by decide) (by decide) (by decide) (by decide)⟩

/-- C8: `encode g m` has the same row count, the same pixel count in each
row and the same channel arity in each pixel as `g` (equal `gridShape`);
being a pure function of its input, it leaves `g` itself untouched and
builds its result anew. -/
theorem encode_preserves_dimensions (g : List (List (List Nat))) (m : List Nat) :
    gridShape (encode g m) = gridShape g := by
  rw [encode]
  exact encodeRows_shape g (message_to_bits m) 0

/-- C9: the instrumented decoder logs exactly the arguments `decode` passes
to `bits_to_char`, its result agrees with `decode`, and every logged
argument is a chunk of exactly `BYTE_LENGTH` bits: the malformed-bit-group
branch of the codec is unreachable from `decode`. -/
theorem decode_calls_are_full_bytes (g : List (List (List Nat))) :
    (decodeWithCalls g).1.output = decode g ∧
    ∀ c ∈ (decodeWithCalls g).2, c.length = BYTE_LENGTH := by
  constructor
  · rw [decodeWithCalls_flat, decode_flat, foldl_calls_fst]
  · rw [decodeWithCalls_flat]
    intro c hc
    have := foldl_calls_inv g.flatten.flatten
      { output := [], chunk := [], done := false } []
      (fun _ => by simp) (by simp) c hc
    rw [BYTE_LENGTH]
    exact this

/-- Witness for C9: a grid whose single full chunk `10000000` is logged. -/
theorem decode_calls_are_full_bytes_witness :
    (decodeWithCalls [[[1, 0, 0, 0, 0, 0, 0, 0]]]).1.output =
      decode [[[1, 0, 0, 0, 0, 0, 0, 0]]] ∧
    ([true, false, false, false, false, false, false, false] : List Bool).length =
      BYTE_LENGTH :=
  ⟨(decode_calls_are_full_bytes [[[1, 0, 0, 0, 0, 0, 0, 0]]]).1,
   (decode_calls_are_full_bytes [[[1, 0, 0, 0, 0, 0, 0, 0]]]).2 _ (by decide)⟩

/-- C10: on a grid whose capacity is not a multiple of 8 and whose LSB
stream has no aligned zero byte, `decode` returns exactly
`capacity / 8` characters, all determined by the full groups: the trailing
partial group contributes nothing. -/
theorem decode_discards_partial_group (g : List (List (List Nat)))
    (_hmod : capacity g % 8 ≠ 0)
    (h : ∀ j < capacity g / 8, byteGroup (lsbs g) j ≠ ZERO_BYTE) :
    (decode g).length = capacity g / 8 ∧
    decode g =
      (List.range (capacity g / 8)).map (fun j => bits_to_char (byteGroup (lsbs g) j)) := by
  have heq : decode g =
      (List.range (capacity g / 8)).map (fun j => bits_to_char (byteGroup (lsbs g) j)) := by
    rw [decode_eq_bits_to_message]
    have hh : ∀ j < (lsbs g).length / 8, byteGroup (lsbs g) j ≠ ZERO_BYTE := by
      rw [lsbs_length]
      exact h
    have := bits_to_message_no_zero (lsbs g) hh
    rwa [lsbs_length] at this
  refine ⟨?_, heq⟩
  rw [heq]
  simp

/-- Witness for C10: a 9-slot grid with LSB stream `111111111`. -/
theorem decode_discards_partial_group_witness :
    capacity [[[1, 1, 1, 1, 1, 1, 1, 1, 1]]] % 8 ≠ 0 ∧
    (∀ j < capacity [[[1, 1, 1, 1, 1, 1, 1, 1, 1]]] / 8,
      byteGroup (lsbs [[[1, 1, 1, 1, 1, 1, 1, 1, 1]]]) j ≠ ZERO_BYTE) ∧
    ((decode [[[1, 1, 1, 1, 1, 1, 1, 1, 1]]]).length =
        capacity [[[1, 1, 1, 1, 1, 1, 1, 1, 1]]] / 8 ∧
      decode [[[1, 1, 1, 1, 1, 1, 1, 1, 1]]] =
        (List.range (capacity [[[1, 1, 1, 1, 1, 1, 1, 1, 1]]] / 8)).map
          (fun j => bits_to_char (byteGroup (lsbs [[[1, 1, 1, 1, 1, 1, 1, 1, 1]]]) j))) :=
  ⟨by decide, by decide, decode_discards_partial_group _ (by decide) (by decide)⟩

end Steganographer
